import Mathlib

/-!
Verification of the `closest` Go package (GJK + EPA closest-point engine)
against its natural-language specification.

The embedding follows the source files `vertex.go`, the `face` file and the
`Measure` file.  Double-precision vectors are modelled over `ℚ` (exact
arithmetic; the source's float64 rounding is idealised away).  The `Distance`
field of a measure only ever holds `+∞` (the GJK loop seed), a value
`Len(Direction) = √q` produced by `updateDistance`, or the negation of such a
value produced at the end of `epa`; it is therefore modelled symbolically by
`FVal`: `FVal.inf` for `math.Inf(1)`, `FVal.sqrtQ q` for `√q`, and
`FVal.negSqrtQ q` for `-√q`, with comparisons evaluated exactly on the
represented real values (for the arguments `q ≥ 0` that actually occur).

Loops (`gjk`'s `for`, `epa`'s `findOuterMinDistanceFace`, the recursive
`simplexHasCyclic`) are modelled with explicit fuel; running out of fuel, or
reaching a state where the Go code would panic (indexing an empty face list,
a simplex size outside the switch arms of `epa`), yields `none`.  On every
concrete input treated below the fuel is sufficient, which the concrete
evaluations demonstrate.
-/

namespace Closest

/-!
The `Rat` arithmetic of Batteries (`Rat.add`, `Rat.mul`, `Rat.sub`,
`Rat.inv`) is marked irreducible, which would make every concrete run of the
engine below impossible to evaluate inside a proof.  The embedding therefore
computes with the following kernel-reducible operations built on
`Rat.divInt`; the bridge lemmas right after them show they are exactly the
field operations of `ℚ`, and all algebraic reasoning goes through those.
-/

def qadd (a b : ℚ) : ℚ := Rat.divInt (a.num * b.den + b.num * a.den) (a.den * b.den)

def qneg (a : ℚ) : ℚ := Rat.divInt (-a.num) a.den

def qsub (a b : ℚ) : ℚ := qadd a (qneg b)

def qmul (a b : ℚ) : ℚ := Rat.divInt (a.num * b.num) (a.den * b.den)

/-- Division with `qdiv a 0 = 0`, the same convention the `ℚ` field
operation uses. -/
def qdiv (a b : ℚ) : ℚ := Rat.divInt (a.num * b.den) (a.den * b.num)

/-- A 3-vector over exact rationals, standing for `mgl64.Vec3`. -/
structure Vec3 where
  x : ℚ
  y : ℚ
  z : ℚ
deriving DecidableEq, Repr

def Vec3.zero : Vec3 := ⟨0, 0, 0⟩

def Vec3.add (a b : Vec3) : Vec3 := ⟨qadd a.x b.x, qadd a.y b.y, qadd a.z b.z⟩

def Vec3.sub (a b : Vec3) : Vec3 := ⟨qsub a.x b.x, qsub a.y b.y, qsub a.z b.z⟩

def Vec3.mul (a : Vec3) (k : ℚ) : Vec3 := ⟨qmul a.x k, qmul a.y k, qmul a.z k⟩

def Vec3.dot (a b : Vec3) : ℚ := qadd (qadd (qmul a.x b.x) (qmul a.y b.y)) (qmul a.z b.z)

def Vec3.cross (a b : Vec3) : Vec3 :=
  ⟨qsub (qmul a.y b.z) (qmul a.z b.y),
   qsub (qmul a.z b.x) (qmul a.x b.z),
   qsub (qmul a.x b.y) (qmul a.y b.x)⟩

def Vec3.lenSqr (a : Vec3) : ℚ := qadd (qadd (qmul a.x a.x) (qmul a.y a.y)) (qmul a.z a.z)

/-- Symbolic value of the float64 `Distance` field: `+∞`, `√q`, or `-√q`.
In every state the code constructs, the argument `q` is a `lenSqr`, so
`q ≥ 0`. -/
inductive FVal where
  | inf : FVal
  | sqrtQ : ℚ → FVal
  | negSqrtQ : ℚ → FVal
deriving DecidableEq, Repr

/-- Float `a >= b` on the represented values (for arguments `q ≥ 0`). -/
def FVal.fge : FVal → FVal → Bool
  | inf, _ => true
  | _, inf => false
  | sqrtQ a, sqrtQ b => decide (b ≤ a)
  | sqrtQ _, negSqrtQ _ => true
  | negSqrtQ a, sqrtQ b => decide (a ≤ 0 ∧ b ≤ 0)
  | negSqrtQ a, negSqrtQ b => decide (a ≤ b)

/-- Float `a > b` on the represented values (for arguments `q ≥ 0`). -/
def FVal.fgt : FVal → FVal → Bool
  | inf, inf => false
  | inf, _ => true
  | _, inf => false
  | sqrtQ a, sqrtQ b => decide (b < a)
  | sqrtQ a, negSqrtQ b => decide (0 < a ∨ 0 < b)
  | negSqrtQ _, sqrtQ _ => false
  | negSqrtQ a, negSqrtQ b => decide (a < b)

/-- `Distance *= -1.0`.  Applied by `epa` right after `updateDistance`, so the
argument is always a `sqrtQ`; the `inf` arm is unreachable. -/
def FVal.negate : FVal → FVal
  | inf => inf
  | sqrtQ q => negSqrtQ q
  | negSqrtQ q => sqrtQ q

/-- The represented value is strictly negative (`-0.0` is not negative,
matching float64). -/
def FVal.isNeg : FVal → Bool
  | negSqrtQ q => decide (0 < q)
  | _ => false

/-- The represented value is `≥ 0`. -/
def FVal.Nonneg : FVal → Prop
  | inf => True
  | sqrtQ q => 0 ≤ q
  | negSqrtQ q => q ≤ 0

/-- A Minkowski-difference vertex (`vertex.go`).  The transient
`isVisited` mark of the source is modelled by the explicit visited set of
`simplexHasCyclicAux`, and is therefore not a field here. -/
structure Vertex where
  indices : ℕ × ℕ
  coordinate : Vec3
  barycentricCoordinate : ℚ
deriving DecidableEq, Repr

def vertexD : Vertex := ⟨(0, 0), Vec3.zero, 0⟩

/-- Accumulator recursion for `getIndexOfMaxDotWithDirection`: Go's
`maxS := math.Inf(-1)` is the `none` state, and `s > maxS` keeps the first
maximum. -/
def gimdAux (d : Vec3) : List Vec3 → ℕ → ℕ → Option ℚ → ℕ
  | [], _, fi, _ => fi
  | v :: rest, i, fi, ms =>
    let s := v.dot d
    match ms with
    | none => gimdAux d rest (i + 1) i (some s)
    | some mv => if mv < s then gimdAux d rest (i + 1) i (some s)
                 else gimdAux d rest (i + 1) fi (some mv)

def getIndexOfMaxDotWithDirection (convex : List Vec3) (direction : Vec3) : ℕ :=
  gimdAux direction convex 0 0 none

/-- `newVertex` from `vertex.go`. -/
def newVertex (convexes : List Vec3 × List Vec3) (direction : Vec3) : Vertex :=
  let closestIndex0 := getIndexOfMaxDotWithDirection convexes.1 direction
  let closestIndex1 := getIndexOfMaxDotWithDirection convexes.2 (direction.mul (-1))
  { indices := (closestIndex0, closestIndex1)
    coordinate := (convexes.2.getD closestIndex1 Vec3.zero).sub
      (convexes.1.getD closestIndex0 Vec3.zero)
    barycentricCoordinate := 0 }

def indexPair (v : Vertex) (j : ℕ) : ℕ := if j = 0 then v.indices.1 else v.indices.2

/-- Depth-first cycle walk of `simplexHasCyclic`.  The source sets and clears
`isVisited` marks around each probe, which is exactly a backtracking search
with the visited set passed down; the fuel `simplex.length + 1` dominates the
recursion depth because every recursive call adds a fresh index to the
visited set drawn from `0 .. simplex.length - 2`. -/
def simplexHasCyclicAux (simplex : List Vertex) : ℕ → List ℕ → ℕ → ℕ → Bool
  | 0, _, _, _ => false
  | fuel + 1, visited, i, j =>
    (List.range (simplex.length - 1)).any fun newI =>
      if visited.contains newI then false
      else if indexPair (simplex.getD newI vertexD) j ≠ indexPair (simplex.getD i vertexD) j
        then false
      else
        let newJ := (j + 1) % 2
        if indexPair (simplex.getD (simplex.length - 1) vertexD) newJ
            = indexPair (simplex.getD newI vertexD) newJ then true
        else simplexHasCyclicAux simplex fuel (newI :: visited) newI newJ

def simplexHasCyclic (simplex : List Vertex) (i j : ℕ) : Bool :=
  simplexHasCyclicAux simplex (simplex.length + 1) [] i j

/-- The simplex reducer `updateSimplex`, switching on the simplex size.
Returns the reduced simplex (with barycentric weights written) and the
`isDegenerated` flag.  Sizes outside `1..4` hit Go's `log.Panic`; they are
unreachable from the call sites (the GJK loop appends to a simplex of size
`≤ 3`, `epa` reduces an exact triangle), and are mapped to the identity. -/
def updateSimplex : List Vertex → List Vertex × Bool
  | [v1] => ([{ v1 with barycentricCoordinate := 1 }], false)
  | [v1, v2] =>
    let a := v1.coordinate
    let b := v2.coordinate
    let ab := b.sub a
    let u := b.dot ab
    if u ≤ 0 then
      ([{ v2 with barycentricCoordinate := 1 }], false)
    else
      ([{ v1 with barycentricCoordinate := u },
        { v2 with barycentricCoordinate := qneg (a.dot ab) }], false)
  | [v1, v2, v3] =>
    let a := v1.coordinate
    let b := v2.coordinate
    let c := v3.coordinate
    let ab := b.sub a
    let ac := c.sub a
    let bc := c.sub b
    let uBC := c.dot bc
    let uAC := c.dot ac
    if uBC ≤ 0 ∧ uAC ≤ 0 then
      ([{ v3 with barycentricCoordinate := 1 }], false)
    else
      let vBC := qneg (b.dot bc)
      let n := ab.cross ac
      if n = Vec3.zero then
        ([v1, v2, v3], true)
      else
        let n1 := b.cross c
        let uABC := n1.dot n
        if uABC ≤ 0 ∧ 0 < uBC ∧ 0 < vBC then
          ([{ v2 with barycentricCoordinate := uBC },
            { v3 with barycentricCoordinate := vBC }], false)
        else
          let vAC := qneg (a.dot ac)
          let n2 := c.cross a
          let vABC := n2.dot n
          if vABC ≤ 0 ∧ 0 < uAC ∧ 0 < vAC then
            ([{ v1 with barycentricCoordinate := uAC },
              { v3 with barycentricCoordinate := vAC }], false)
          else
            let n3 := a.cross b
            let wABC := n3.dot n
            ([{ v1 with barycentricCoordinate := uABC },
              { v2 with barycentricCoordinate := vABC },
              { v3 with barycentricCoordinate := wABC }], false)
  | [v1, v2, v3, v4] =>
    let a := v1.coordinate
    let b := v2.coordinate
    let c := v3.coordinate
    let d := v4.coordinate
    let ad := d.sub a
    let bd := d.sub b
    let cd := d.sub c
    let uBD := d.dot bd
    let uCD := d.dot cd
    let uAD := d.dot ad
    if uBD ≤ 0 ∧ uCD ≤ 0 ∧ uAD ≤ 0 then
      ([{ v4 with barycentricCoordinate := 1 }], false)
    else
      let ab := b.sub a
      let ac := c.sub a
      let bc := c.sub b
      let vBD := qneg (b.dot bd)
      let vCD := qneg (c.dot cd)
      let vAD := qneg (a.dot ad)
      let nADB := ad.cross ab
      let uADB := (d.cross b).dot nADB
      let vADB := (b.cross a).dot nADB
      let wADB := (a.cross d).dot nADB
      let nACD := ac.cross ad
      let uACD := (c.cross d).dot nACD
      let vACD := (d.cross a).dot nACD
      let wACD := (a.cross c).dot nACD
      let nCBD := (bc.mul (-1)).cross cd
      let uCBD := (b.cross d).dot nCBD
      let vCBD := (d.cross c).dot nCBD
      let wCBD := (c.cross b).dot nCBD
      if vCBD ≤ 0 ∧ uACD ≤ 0 ∧ 0 < uCD ∧ 0 < vCD then
        ([{ v3 with barycentricCoordinate := uCD },
          { v4 with barycentricCoordinate := vCD }], false)
      else if vACD ≤ 0 ∧ wADB ≤ 0 ∧ 0 < uAD ∧ 0 < vAD then
        ([{ v1 with barycentricCoordinate := uAD },
          { v4 with barycentricCoordinate := vAD }], false)
      else if uCBD ≤ 0 ∧ uADB ≤ 0 ∧ 0 < uBD ∧ 0 < vBD then
        ([{ v2 with barycentricCoordinate := uBD },
          { v4 with barycentricCoordinate := vBD }], false)
      else
        let volume := qneg ((bc.cross ab).dot bd)
        if volume = 0 then ([v1, v2, v3, v4], true)
        else
          let volumeInverse := qdiv 1 volume
          let uABCD := qmul ((c.cross d).dot b) volumeInverse
          if uABCD = 0 then ([v1, v2, v3, v4], true)
          else
            let vABCD := qmul ((c.cross a).dot d) volumeInverse
            if vABCD = 0 then ([v1, v2, v3, v4], true)
            else
              let wABCD := qmul ((d.cross a).dot b) volumeInverse
              if wABCD = 0 then ([v1, v2, v3, v4], true)
              else
                let xABCD := qmul ((b.cross a).dot c) volumeInverse
                if xABCD = 0 then ([v1, v2, v3, v4], true)
                else
                  if uABCD < 0 ∧ 0 < uCBD ∧ 0 < vCBD ∧ 0 < wCBD then
                    ([{ v2 with barycentricCoordinate := vCBD },
                      { v3 with barycentricCoordinate := uCBD },
                      { v4 with barycentricCoordinate := wCBD }], false)
                  else if vABCD < 0 ∧ 0 < uACD ∧ 0 < vACD ∧ 0 < wACD then
                    ([{ v1 with barycentricCoordinate := uACD },
                      { v3 with barycentricCoordinate := vACD },
                      { v4 with barycentricCoordinate := wACD }], false)
                  else if wABCD < 0 ∧ 0 < uADB ∧ 0 < vADB ∧ 0 < wADB then
                    ([{ v1 with barycentricCoordinate := uADB },
                      { v2 with barycentricCoordinate := wADB },
                      { v4 with barycentricCoordinate := vADB }], false)
                  else
                    ([{ v1 with barycentricCoordinate := uABCD },
                      { v2 with barycentricCoordinate := vABCD },
                      { v3 with barycentricCoordinate := wABCD },
                      { v4 with barycentricCoordinate := xABCD }], false)
  | s => (s, false)

/-- The measurement state (`Measure`).  `Ons` are sets of hull-vertex
indices (Go `map[int]struct{}`), modelled as duplicate-free lists in
insertion order — the executable image of the map's key set.  `degenerate`
is a ghost flag recording whether the GJK loop terminated through the
reducer's degeneracy signal; it does not influence any computation. -/
structure Measure where
  ConvexHulls : List Vec3 × List Vec3
  Distance : FVal
  Direction : Vec3
  Points : Vec3 × Vec3
  Ons : List ℕ × List ℕ
  simplex : List Vertex
  degenerate : Bool
deriving DecidableEq

/-- A `Measure` as Go zero-initialises it (all outputs zero), with the given
hulls and warm-start direction. -/
def initMeasure (hulls : List Vec3 × List Vec3) (dir : Vec3) : Measure :=
  ⟨hulls, FVal.sqrtQ 0, dir, (Vec3.zero, Vec3.zero), ([], []), [], false⟩

def updateDirection (m : Measure) : Measure :=
  match m.simplex with
  | [v1] => { m with Direction := v1.coordinate }
  | [v1, v2] =>
    let difference := v1.coordinate.sub v2.coordinate
    let x := qdiv (v1.coordinate.dot difference) difference.lenSqr
    { m with Direction := v1.coordinate.sub (difference.mul x) }
  | [v1, v2, v3] =>
    let ba := v1.coordinate.sub v2.coordinate
    let ca := v1.coordinate.sub v3.coordinate
    let n := ba.cross ca
    let scale := qdiv (n.dot v1.coordinate) n.lenSqr
    { m with Direction := n.mul scale }
  | [_, _, _, _] => { m with Direction := Vec3.zero }
  | _ => m

def updateDistance (m : Measure) : Measure :=
  { m with Distance := FVal.sqrtQ m.Direction.lenSqr }

def updateTheOthers (m : Measure) : Measure :=
  let denominator := m.simplex.foldl (fun acc v => qadd acc v.barycentricCoordinate) 0
  let denom := qdiv 1 denominator
  let point := fun (hull : List Vec3) (sel : Vertex → ℕ) =>
    m.simplex.foldl
      (fun acc v => acc.add ((hull.getD (sel v) Vec3.zero).mul
        (qmul denom v.barycentricCoordinate))) Vec3.zero
  let ons := fun (sel : Vertex → ℕ) =>
    m.simplex.foldl
      (fun acc v => if acc.contains (sel v) then acc else acc ++ [sel v]) ([] : List ℕ)
  { m with
    Points := (point m.ConvexHulls.1 (fun v => v.indices.1),
               point m.ConvexHulls.2 (fun v => v.indices.2))
    Ons := (ons (fun v => v.indices.1), ons (fun v => v.indices.2)) }

/-- One body execution of the GJK loop; `Sum.inr` is a `break`. -/
def gjkStep (m : Measure) : Measure ⊕ Measure :=
  let v := newVertex m.ConvexHulls m.Direction
  let m1 := { m with simplex := m.simplex ++ [v] }
  if simplexHasCyclic m1.simplex (m1.simplex.length - 1) 0 then
    Sum.inr { m1 with simplex := m1.simplex.dropLast }
  else
    let su := updateSimplex m1.simplex
    let m2 := { m1 with simplex := su.1 }
    if su.2 then Sum.inr (updateDirection { m2 with degenerate := true })
    else
      let m3 := updateDirection m2
      let lastDistance := m3.Distance
      let m4 := updateDistance m3
      if FVal.fge m4.Distance lastDistance then Sum.inr m4 else Sum.inl m4

def gjkLoop : ℕ → Measure → Option Measure
  | 0, _ => none
  | fuel + 1, m =>
    if m.simplex.length < 4 then
      match gjkStep m with
      | Sum.inr m' => some m'
      | Sum.inl m' => gjkLoop fuel m'
    else some m

/-- Fuel bound for the GJK loop.  Each completed iteration strictly decreases
the distance, which is a function of the index-pair list of the simplex, a
list of length `≤ 4` over `hull₀.length × hull₁.length` possibilities, so the
loop cannot run longer than the number of such lists. -/
def gjkFuel (m : Measure) : ℕ :=
  (m.ConvexHulls.1.length * m.ConvexHulls.2.length + 1) ^ 5 + 2

/-- The GJK driver.  The source resets the scratch simplex and seeds the
distance with `+∞`; the stale `Points`/`Ons` values it leaves in place are
never read before `updateTheOthers` fully overwrites them, so the loop is
started from their canonical zero values. -/
def gjk (m : Measure) : Option Measure :=
  (gjkLoop (gjkFuel m)
    ⟨m.ConvexHulls, FVal.inf, m.Direction, (Vec3.zero, Vec3.zero), ([], []), [], false⟩).map
    updateTheOthers

/-- The empty-hull short circuit shared by both facade entry points. -/
def emptyShort (m : Measure) : Measure :=
  { m with Distance := FVal.sqrtQ 0, Points := (Vec3.zero, Vec3.zero), Ons := ([], []) }

def MeasureNonnegativeDistance (m : Measure) : Option Measure :=
  if m.ConvexHulls.1.length = 0 then some (emptyShort m)
  else if m.ConvexHulls.2.length = 0 then some (emptyShort m)
  else gjk m

/-- An EPA face: a triple of positions into the current simplex plus the
cached measure of the triangle they span (the source's `face` struct).  The
cached measure is produced by running `gjk` on the hulls
`([0], [A, B, C])`. -/
structure Face where
  indices : ℕ × ℕ × ℕ
  measure : Measure
deriving DecidableEq

def newFace (simplex : List Vertex) (indices : ℕ × ℕ × ℕ) : Option Face :=
  let hull1 := [(simplex.getD indices.1 vertexD).coordinate,
                (simplex.getD indices.2.1 vertexD).coordinate,
                (simplex.getD indices.2.2 vertexD).coordinate]
  (gjk (initMeasure ([Vec3.zero], hull1) Vec3.zero)).map (fun fm => ⟨indices, fm⟩)

def Face.getNormal (f : Face) (simplex : List Vertex) : Vec3 :=
  ((simplex.getD f.indices.2.1 vertexD).coordinate.sub
    (simplex.getD f.indices.1 vertexD).coordinate).cross
    ((simplex.getD f.indices.2.2 vertexD).coordinate.sub
      (simplex.getD f.indices.1 vertexD).coordinate)

/-- Swap the last two indices when the face normal opposes the face's own
direction from the origin (`epa`'s orientation fix at creation). -/
def orientFace (simplex : List Vertex) (f : Face) : Face :=
  if (f.getNormal simplex).dot f.measure.Direction < 0 then
    { f with indices := (f.indices.1, f.indices.2.2, f.indices.2.1) }
  else f

/-- Initial face list of `epa`; simplex sizes other than 3 and 4 hit Go's
`log.Panic` and give `none`. -/
def epaInitFaces (m : Measure) : Option (List Face) :=
  match m.simplex.length with
  | 3 => (newFace m.simplex (0, 1, 2)).map (fun f => [orientFace m.simplex f])
  | 4 => do
    let f0 ← newFace m.simplex (1, 2, 3)
    let f1 ← newFace m.simplex (0, 2, 3)
    let f2 ← newFace m.simplex (0, 1, 3)
    let f3 ← newFace m.simplex (0, 1, 2)
    some [orientFace m.simplex f0, orientFace m.simplex f1,
          orientFace m.simplex f2, orientFace m.simplex f3]
  | _ => none

/-- Insertion into a descending list, placing new faces after earlier equal
ones; on the distinct sort keys arising below this computes the same order
as the source's `sort.Slice`. -/
def insertDesc (f : Face) : List Face → List Face
  | [] => [f]
  | g :: rest =>
    if FVal.fge g.measure.Distance f.measure.Distance then g :: insertDesc f rest
    else f :: g :: rest

def sortFacesDesc (faces : List Face) : List Face :=
  faces.foldl (fun acc f => insertDesc f acc) []

/-- The three directed edges of a face, in the source's `j, (j+1)%3` order. -/
def faceEdges (f : Face) : List (ℕ × ℕ) :=
  [(f.indices.1, f.indices.2.1), (f.indices.2.1, f.indices.2.2),
   (f.indices.2.2, f.indices.1)]

/-- `reconstruct`'s silhouette-edge toggle: deleting a present key, otherwise
inserting the reversed edge (a repeated insertion coalesces, as for a Go map
key). -/
def edgeToggle (edges : List (ℕ × ℕ)) (e : ℕ × ℕ) : List (ℕ × ℕ) :=
  if edges.contains e then edges.erase e
  else if edges.contains (e.2, e.1) then edges
  else edges ++ [(e.2, e.1)]

/-- The removal scan of `reconstruct`: faces are visited in descending index
order (the recursion processes the tail first), visible faces are dropped
and their edges toggled.  Returns the kept faces in order and the silhouette
edges in insertion order (the model's deterministic stand-in for Go's map
iteration order). -/
def removeVisible (m : Measure) : List Face → List Face × List (ℕ × ℕ)
  | [] => ([], [])
  | f :: rest =>
    let tr := removeVisible m rest
    if 0 < (f.getNormal m.simplex).dot
        ((m.simplex.getD (m.simplex.length - 1) vertexD).coordinate.sub
          (m.simplex.getD f.indices.1 vertexD).coordinate) then
      (tr.1, (faceEdges f).foldl edgeToggle tr.2)
    else
      (f :: tr.1, tr.2)

/-- `reconstruct`'s back-to-front insertion scan: `none` means no element
from the back satisfies `newFace.Distance ≤ faces[i].Distance`. -/
def insertFromBackAux (nf : Face) : List Face → Option (List Face)
  | [] => none
  | f :: rest =>
    match insertFromBackAux nf rest with
    | some rest' => some (f :: rest')
    | none =>
      if FVal.fge f.measure.Distance nf.measure.Distance then some (f :: nf :: rest)
      else none

def insertFromBack (nf : Face) (faces : List Face) : List Face :=
  (insertFromBackAux nf faces).getD (nf :: faces)

def reconstruct (m : Measure) (faces : List Face) : Option (List Face) :=
  let rv := removeVisible m faces
  rv.2.foldlM
    (fun fs e =>
      (newFace m.simplex (e.2, e.1, m.simplex.length - 1)).map
        (fun nf => insertFromBack nf fs))
    rv.1

/-- The `findOuterMinDistanceFace` loop of `epa`.  An empty face list makes
the source index out of range and panic, modelled by `none`. -/
def epaLoop : ℕ → Measure → List Face → Option (Measure × List Face)
  | 0, _, _ => none
  | fuel + 1, m, faces =>
    match faces.getLast? with
    | none => none
    | some tail =>
      let nv := newVertex m.ConvexHulls (tail.measure.Direction.mul (-1))
      if m.simplex.any (fun v => v.indices = nv.indices) then some (m, faces)
      else
        let m' := { m with simplex := m.simplex ++ [nv] }
        match reconstruct m' faces with
        | none => none
        | some faces' => epaLoop fuel m' faces'

/-- Fuel bound for the EPA loop: every iteration appends a vertex whose index
pair differs from all present ones, and pairs live in
`hull₀.length × hull₁.length`. -/
def epaFuel (m : Measure) : ℕ :=
  m.ConvexHulls.1.length * m.ConvexHulls.2.length + 2

def epa (m : Measure) : Option Measure :=
  match epaInitFaces m with
  | none => none
  | some faces0 =>
    match epaLoop (epaFuel m) m (sortFacesDesc faces0) with
    | none => none
    | some (m1, faces2) =>
      match faces2.getLast? with
      | none => none
      | some tail =>
        let newSimplex := [m1.simplex.getD tail.indices.1 vertexD,
                           m1.simplex.getD tail.indices.2.1 vertexD,
                           m1.simplex.getD tail.indices.2.2 vertexD]
        let m2 := { m1 with simplex := (updateSimplex newSimplex).1 }
        let m3 := updateTheOthers (updateDistance (updateDirection m2))
        some { m3 with Distance := m3.Distance.negate }

def MeasureDistance (m : Measure) : Option Measure :=
  if m.ConvexHulls.1.length = 0 then some (emptyShort m)
  else if m.ConvexHulls.2.length = 0 then some (emptyShort m)
  else
    match gjk m with
    | none => none
    | some g => if g.simplex.length < 4 then some g else epa g

/-- The distance field only ever holds `+∞` or a nonnegative square root. -/
def DistOK (m : Measure) : Prop :=
  m.Distance = FVal.inf ∨ ∃ r : ℚ, 0 ≤ r ∧ m.Distance = FVal.sqrtQ r

/-- Shorthand for rational literals that stays kernel-reducible. -/
def qq (n d : ℤ) : ℚ := Rat.divInt n d

/-- The input of the C1/C2 counterexamples: a one-point first hull at the
origin and a tetrahedron whose face spanned by vertices 1, 2, 3 contains the
origin in its interior, so the hulls touch. -/
def m0C : Measure :=
  initMeasure ([⟨0, 0, 0⟩], [⟨0, 0, 2⟩, ⟨3, 0, 0⟩, ⟨-2, 2, 0⟩, ⟨-2, -3, 0⟩]) Vec3.zero

/-- The `gjk` state on `m0C`: the degenerate 4-vertex simplex. -/
def g0C : Measure :=
  ⟨([⟨0, 0, 0⟩], [⟨0, 0, 2⟩, ⟨3, 0, 0⟩, ⟨-2, 2, 0⟩, ⟨-2, -3, 0⟩]),
   FVal.sqrtQ (qq 18 19), Vec3.zero,
   (⟨0, 0, 0⟩, ⟨qq 6 19, qq 15 19, qq 9 19⟩), ([0], [0, 1, 2, 3]),
   [⟨(0, 0), ⟨0, 0, 2⟩, 36⟩, ⟨(0, 1), ⟨3, 0, 0⟩, 56⟩,
    ⟨(0, 2), ⟨-2, 2, 0⟩, 60⟩, ⟨(0, 3), ⟨-2, -3, 0⟩, 0⟩], true⟩

/-- The `MeasureDistance` result on `m0C`. -/
def r0C : Measure :=
  ⟨([⟨0, 0, 0⟩], [⟨0, 0, 2⟩, ⟨3, 0, 0⟩, ⟨-2, 2, 0⟩, ⟨-2, -3, 0⟩]),
   FVal.negSqrtQ 0, Vec3.zero, (⟨0, 0, 0⟩, ⟨0, 0, 0⟩), ([0], [1, 2, 3]),
   [⟨(0, 1), ⟨3, 0, 0⟩, 250⟩, ⟨(0, 2), ⟨-2, 2, 0⟩, 225⟩,
    ⟨(0, 3), ⟨-2, -3, 0⟩, 150⟩], true⟩

theorem qden_int_ne (a : ℚ) : (a.den : ℤ) ≠ 0 := by
  exact_mod_cast a.den_nz

theorem qadd_eq (a b : ℚ) : qadd a b = a + b := by
  unfold qadd
  rw [← Rat.divInt_add_divInt _ _ (qden_int_ne a) (qden_int_ne b),
    Rat.num_divInt_den, Rat.num_divInt_den]

theorem qneg_eq (a : ℚ) : qneg a = -a := by
  unfold qneg
  rw [← Rat.neg_divInt, Rat.num_divInt_den]

theorem qsub_eq (a b : ℚ) : qsub a b = a - b := by
  rw [qsub, qadd_eq, qneg_eq, sub_eq_add_neg]

theorem qmul_eq (a b : ℚ) : qmul a b = a * b := by
  unfold qmul
  rw [← Rat.divInt_mul_divInt _ _ (qden_int_ne a) (qden_int_ne b),
    Rat.num_divInt_den, Rat.num_divInt_den]

theorem qdiv_eq (a b : ℚ) : qdiv a b = a / b := by
  unfold qdiv
  rcases eq_or_ne b 0 with hb | hb
  · subst hb; simp
  · have hn : b.num ≠ 0 := Rat.num_ne_zero.mpr hb
    rw [← Rat.divInt_mul_divInt _ _ (qden_int_ne a) hn, Rat.num_divInt_den,
      Rat.div_def, Rat.inv_def]

theorem Vec3.dot_eq (a b : Vec3) : a.dot b = a.x * b.x + a.y * b.y + a.z * b.z := by
  simp [Vec3.dot, qadd_eq, qmul_eq]

theorem Vec3.lenSqr_eq (a : Vec3) : a.lenSqr = a.x * a.x + a.y * a.y + a.z * a.z := by
  simp [Vec3.lenSqr, qadd_eq, qmul_eq]

theorem Vec3.sub_def (a b : Vec3) : a.sub b = ⟨a.x - b.x, a.y - b.y, a.z - b.z⟩ := by
  simp [Vec3.sub, qsub_eq]

theorem Vec3.add_def (a b : Vec3) : a.add b = ⟨a.x + b.x, a.y + b.y, a.z + b.z⟩ := by
  simp [Vec3.add, qadd_eq]

theorem Vec3.mul_def (a : Vec3) (k : ℚ) : a.mul k = ⟨a.x * k, a.y * k, a.z * k⟩ := by
  simp [Vec3.mul, qmul_eq]

theorem Vec3.lenSqr_nonneg (a : Vec3) : 0 ≤ a.lenSqr := by
  rw [Vec3.lenSqr_eq]
  nlinarith [mul_self_nonneg a.x, mul_self_nonneg a.y, mul_self_nonneg a.z]

theorem Vec3.dot_zero (a : Vec3) : a.dot Vec3.zero = 0 := by
  simp [Vec3.dot_eq, Vec3.zero]

theorem gimdAux_cons (d v : Vec3) (rest : List Vec3) (i fi : ℕ) (mv : ℚ) :
    gimdAux d (v :: rest) i fi (some mv) =
      if mv < v.dot d then gimdAux d rest (i + 1) i (some (v.dot d))
      else gimdAux d rest (i + 1) fi (some mv) := rfl

theorem gimdAux_none_cons (d v : Vec3) (rest : List Vec3) :
    gimdAux d (v :: rest) 0 0 none = gimdAux d rest 1 0 (some (v.dot d)) := rfl

/-- Accumulator specification of the support scan: either no element of
`rest` strictly beats the running maximum `mv` and the running index `fi` is
returned, or the scan returns the position of the first element that attains
the maximum of `rest` strictly above `mv`. -/
theorem gimdAux_spec (d : Vec3) (rest : List Vec3) :
    ∀ (i fi : ℕ) (mv : ℚ),
      (gimdAux d rest i fi (some mv) = fi
        ∧ ∀ k, k < rest.length → (rest.getD k Vec3.zero).dot d ≤ mv)
      ∨ (∃ k, k < rest.length ∧ gimdAux d rest i fi (some mv) = i + k
          ∧ mv < (rest.getD k Vec3.zero).dot d
          ∧ (∀ j, j < rest.length →
              (rest.getD j Vec3.zero).dot d ≤ (rest.getD k Vec3.zero).dot d)
          ∧ (∀ j, j < k →
              (rest.getD j Vec3.zero).dot d < (rest.getD k Vec3.zero).dot d)) := by
  induction rest with
  | nil =>
    intro i fi mv
    left
    exact ⟨rfl, fun k hk => absurd hk (by simp)⟩
  | cons v rest ih =>
    intro i fi mv
    rw [gimdAux_cons]
    by_cases hlt : mv < v.dot d
    · rw [if_pos hlt]
      rcases ih (i + 1) i (v.dot d) with ⟨heq, hall⟩ | ⟨k, hk, heq, hgt, hall, hstrict⟩
      · right
        refine ⟨0, by simp, by omega, ?_, ?_, ?_⟩
        · simpa using hlt
        · intro j hj
          cases j with
          | zero => simp
          | succ j =>
            simp only [List.getD_cons_succ, List.getD_cons_zero]
            exact hall j (by simpa using hj)
        · intro j hj; omega
      · right
        refine ⟨k + 1, by simpa using hk, by omega, ?_, ?_, ?_⟩
        · simp only [List.getD_cons_succ]
          exact lt_trans hlt hgt
        · intro j hj
          cases j with
          | zero =>
            simp only [List.getD_cons_succ, List.getD_cons_zero]
            exact le_of_lt hgt
          | succ j =>
            simp only [List.getD_cons_succ]
            exact hall j (by simpa using hj)
        · intro j hj
          cases j with
          | zero =>
            simp only [List.getD_cons_succ, List.getD_cons_zero]
            exact hgt
          | succ j =>
            simp only [List.getD_cons_succ]
            exact hstrict j (by omega)
    · rw [if_neg hlt]
      push_neg at hlt
      rcases ih (i + 1) fi mv with ⟨heq, hall⟩ | ⟨k, hk, heq, hgt, hall, hstrict⟩
      · left
        refine ⟨heq, ?_⟩
        intro k hkl
        cases k with
        | zero => simpa using hlt
        | succ k =>
          simp only [List.getD_cons_succ]
          exact hall k (by simpa using hkl)
      · right
        refine ⟨k + 1, by simpa using hk, by omega, ?_, ?_, ?_⟩
        · simp only [List.getD_cons_succ]
          exact hgt
        · intro j hj
          cases j with
          | zero =>
            simp only [List.getD_cons_succ, List.getD_cons_zero]
            exact le_trans hlt (le_of_lt hgt)
          | succ j =>
            simp only [List.getD_cons_succ]
            exact hall j (by simpa using hj)
        · intro j hj
          cases j with
          | zero =>
            simp only [List.getD_cons_succ, List.getD_cons_zero]
            exact lt_of_le_of_lt hlt hgt
          | succ j =>
            simp only [List.getD_cons_succ]
            exact hstrict j (by omega)

/-- The support oracle returns an in-range index attaining the maximum dot
product, and every earlier index is strictly below it. -/
theorem support_spec (l : List Vec3) (d : Vec3) (hl : l ≠ []) :
    getIndexOfMaxDotWithDirection l d < l.length
    ∧ (∀ j, j < l.length →
        (l.getD j Vec3.zero).dot d
          ≤ (l.getD (getIndexOfMaxDotWithDirection l d) Vec3.zero).dot d)
    ∧ (∀ j, j < getIndexOfMaxDotWithDirection l d →
        (l.getD j Vec3.zero).dot d
          < (l.getD (getIndexOfMaxDotWithDirection l d) Vec3.zero).dot d) := by
  cases l with
  | nil => exact absurd rfl hl
  | cons v rest =>
    unfold getIndexOfMaxDotWithDirection
    rw [gimdAux_none_cons]
    rcases gimdAux_spec d rest 1 0 (v.dot d) with ⟨heq, hall⟩ | ⟨k, hk, heq, hgt, hall, hstrict⟩
    · rw [heq]
      refine ⟨by simp, ?_, ?_⟩
      · intro j hj
        cases j with
        | zero => simp
        | succ j =>
          simp only [List.getD_cons_succ, List.getD_cons_zero]
          exact hall j (by simpa using hj)
      · intro j hj; omega
    · rw [heq]
      refine ⟨by simp; omega, ?_, ?_⟩
      · intro j hj
        have h1k : 1 + k = k + 1 := by omega
        rw [h1k]
        cases j with
        | zero =>
          simp only [List.getD_cons_succ, List.getD_cons_zero]
          exact le_of_lt hgt
        | succ j =>
          simp only [List.getD_cons_succ]
          exact hall j (by simpa using hj)
      · intro j hj
        have h1k : 1 + k = k + 1 := by omega
        rw [h1k] at hj ⊢
        cases j with
        | zero =>
          simp only [List.getD_cons_succ, List.getD_cons_zero]
          exact hgt
        | succ j =>
          simp only [List.getD_cons_succ]
          exact hstrict j (by omega)

theorem Vec3.sub_dot (a b c : Vec3) : (a.sub b).dot c = a.dot c - b.dot c := by
  simp [Vec3.sub_def, Vec3.dot_eq]; ring

theorem Vec3.dot_mul_neg_one (a d : Vec3) : a.dot (d.mul (-1)) = -(a.dot d) := by
  simp [Vec3.mul_def, Vec3.dot_eq]; ring

/-- C6: for a non-empty hull the support oracle returns the lowest index
attaining the maximum dot product with the direction (first maximum wins,
deterministically), and for the zero direction it returns index 0. -/
theorem C6_support_first_max (l : List Vec3) (d : Vec3) (hl : l ≠ []) :
    getIndexOfMaxDotWithDirection l d < l.length
    ∧ (∀ j, j < l.length →
        (l.getD j Vec3.zero).dot d
          ≤ (l.getD (getIndexOfMaxDotWithDirection l d) Vec3.zero).dot d)
    ∧ (∀ j, j < getIndexOfMaxDotWithDirection l d →
        (l.getD j Vec3.zero).dot d
          < (l.getD (getIndexOfMaxDotWithDirection l d) Vec3.zero).dot d)
    ∧ (d = Vec3.zero → getIndexOfMaxDotWithDirection l d = 0) := by
  obtain ⟨h1, h2, h3⟩ := support_spec l d hl
  refine ⟨h1, h2, h3, ?_⟩
  intro hd
  by_contra h0
  have hlt := h3 0 (Nat.pos_of_ne_zero h0)
  rw [hd] at hlt
  simp [Vec3.dot_zero] at hlt

/-- Witness for C6 at a concrete hull with a tie: the first maximum at
index 1 wins over the equal vertex at index 2. -/
theorem C6_support_first_max_witness :
    (([⟨1, 0, 0⟩, ⟨2, 0, 0⟩, ⟨2, 0, 0⟩] : List Vec3) ≠ [])
    ∧ getIndexOfMaxDotWithDirection [⟨1, 0, 0⟩, ⟨2, 0, 0⟩, ⟨2, 0, 0⟩] ⟨1, 0, 0⟩
        < ([⟨1, 0, 0⟩, ⟨2, 0, 0⟩, ⟨2, 0, 0⟩] : List Vec3).length
    ∧ getIndexOfMaxDotWithDirection [⟨1, 0, 0⟩, ⟨2, 0, 0⟩, ⟨2, 0, 0⟩] ⟨1, 0, 0⟩ = 1 :=
  ⟨by decide,
   (C6_support_first_max [⟨1, 0, 0⟩, ⟨2, 0, 0⟩, ⟨2, 0, 0⟩] ⟨1, 0, 0⟩ (by decide)).1,
   by decide⟩

/-- C4: for non-empty hulls, `newVertex` is built from
`i₀ = support(hull₀, direction)` and `i₁ = support(hull₁, -direction)` and
its coordinate `hull₁[i₁] - hull₀[i₀]` maximises `p · d` over the Minkowski
difference, where `d = -direction` is the Minkowski query direction (the
spec's `i₀ = support(hull₀, -d)`, `i₁ = support(hull₁, d)`). -/
theorem C4_minkowski_support (hulls : List Vec3 × List Vec3) (direction : Vec3)
    (h0 : hulls.1 ≠ []) (h1 : hulls.2 ≠ []) :
    (newVertex hulls direction).indices.1 = getIndexOfMaxDotWithDirection hulls.1 direction
    ∧ (newVertex hulls direction).indices.2
        = getIndexOfMaxDotWithDirection hulls.2 (direction.mul (-1))
    ∧ (newVertex hulls direction).coordinate =
        (hulls.2.getD (getIndexOfMaxDotWithDirection hulls.2 (direction.mul (-1))) Vec3.zero).sub
          (hulls.1.getD (getIndexOfMaxDotWithDirection hulls.1 direction) Vec3.zero)
    ∧ ∀ j0 j1, j0 < hulls.1.length → j1 < hulls.2.length →
        ((hulls.2.getD j1 Vec3.zero).sub (hulls.1.getD j0 Vec3.zero)).dot (direction.mul (-1))
          ≤ (newVertex hulls direction).coordinate.dot (direction.mul (-1)) := by
  refine ⟨rfl, rfl, rfl, ?_⟩
  intro j0 j1 hj0 hj1
  obtain ⟨-, hmax1, -⟩ := support_spec hulls.1 direction h0
  obtain ⟨-, hmax2, -⟩ := support_spec hulls.2 (direction.mul (-1)) h1
  have ha := hmax1 j0 hj0
  have hb := hmax2 j1 hj1
  show ((hulls.2.getD j1 Vec3.zero).sub (hulls.1.getD j0 Vec3.zero)).dot (direction.mul (-1))
    ≤ ((hulls.2.getD (getIndexOfMaxDotWithDirection hulls.2 (direction.mul (-1))) Vec3.zero).sub
        (hulls.1.getD (getIndexOfMaxDotWithDirection hulls.1 direction) Vec3.zero)).dot
        (direction.mul (-1))
  rw [Vec3.sub_dot, Vec3.sub_dot, Vec3.dot_mul_neg_one (hulls.1.getD j0 Vec3.zero),
    Vec3.dot_mul_neg_one (hulls.1.getD (getIndexOfMaxDotWithDirection hulls.1 direction) Vec3.zero)]
  linarith

/-- Witness for C4 at concrete hulls and a nonzero direction. -/
theorem C4_minkowski_support_witness :
    (([⟨0, 0, 0⟩, ⟨2, 1, 0⟩] : List Vec3) ≠ []) ∧ (([⟨5, 0, 0⟩, ⟨4, 4, 0⟩] : List Vec3) ≠ [])
    ∧ (newVertex ([⟨0, 0, 0⟩, ⟨2, 1, 0⟩], [⟨5, 0, 0⟩, ⟨4, 4, 0⟩]) ⟨1, 0, 0⟩).indices.1
        = getIndexOfMaxDotWithDirection [⟨0, 0, 0⟩, ⟨2, 1, 0⟩] ⟨1, 0, 0⟩ :=
  ⟨by decide, by decide,
   (C4_minkowski_support ([⟨0, 0, 0⟩, ⟨2, 1, 0⟩], [⟨5, 0, 0⟩, ⟨4, 4, 0⟩]) ⟨1, 0, 0⟩
     (by decide) (by decide)).1⟩

theorem facade_empty_path (m : Measure)
    (h : m.ConvexHulls.1 = [] ∨ m.ConvexHulls.2 = []) :
    MeasureDistance m = some (emptyShort m)
    ∧ MeasureNonnegativeDistance m = some (emptyShort m) := by
  unfold MeasureDistance MeasureNonnegativeDistance
  by_cases h1 : m.ConvexHulls.1.length = 0
  · rw [if_pos h1, if_pos h1]; exact ⟨rfl, rfl⟩
  · have h2 : m.ConvexHulls.2.length = 0 := by
      rcases h with h | h
      · exact absurd (by rw [h]; rfl) h1
      · rw [h]; rfl
    rw [if_neg h1, if_neg h1, if_pos h2, if_pos h2]
    exact ⟨rfl, rfl⟩

/-- C3: when either hull is empty, both facade entry points return the
short-circuit state (distance 0, empty index sets) without running GJK or
EPA, and no error occurs (the result is `some`). -/
theorem C3_empty_hull_short_circuit (m : Measure)
    (h : m.ConvexHulls.1 = [] ∨ m.ConvexHulls.2 = []) :
    MeasureDistance m = some (emptyShort m)
    ∧ MeasureNonnegativeDistance m = some (emptyShort m)
    ∧ (emptyShort m).Distance = FVal.sqrtQ 0
    ∧ (emptyShort m).Ons = ([], []) := by
  obtain ⟨hd, hn⟩ := facade_empty_path m h
  exact ⟨hd, hn, rfl, rfl⟩

/-- Witness for C3: an empty first hull short-circuits both entry points. -/
theorem C3_empty_hull_short_circuit_witness :
    ((initMeasure ([], [⟨1, 0, 0⟩]) ⟨5, 6, 7⟩).ConvexHulls.1 = []
      ∨ (initMeasure ([], [⟨1, 0, 0⟩]) ⟨5, 6, 7⟩).ConvexHulls.2 = [])
    ∧ MeasureDistance (initMeasure ([], [⟨1, 0, 0⟩]) ⟨5, 6, 7⟩)
        = some (emptyShort (initMeasure ([], [⟨1, 0, 0⟩]) ⟨5, 6, 7⟩)) :=
  ⟨Or.inl rfl, (C3_empty_hull_short_circuit _ (Or.inl rfl)).1⟩

/-- C9: on the empty-hull path the persisted warm-start `Direction` is left
unchanged, while `Distance` is set to 0, both `Points` to the zero vector
and both `Ons` sets to empty, for both entry points. -/
theorem C9_empty_hull_frame (m : Measure)
    (h : m.ConvexHulls.1 = [] ∨ m.ConvexHulls.2 = []) :
    (MeasureDistance m).map Measure.Direction = some m.Direction
    ∧ (MeasureNonnegativeDistance m).map Measure.Direction = some m.Direction
    ∧ (MeasureDistance m).map Measure.Distance = some (FVal.sqrtQ 0)
    ∧ (MeasureDistance m).map Measure.Points = some (Vec3.zero, Vec3.zero)
    ∧ (MeasureDistance m).map Measure.Ons = some ([], [])
    ∧ (MeasureNonnegativeDistance m).map Measure.Distance = some (FVal.sqrtQ 0)
    ∧ (MeasureNonnegativeDistance m).map Measure.Points = some (Vec3.zero, Vec3.zero)
    ∧ (MeasureNonnegativeDistance m).map Measure.Ons = some ([], []) := by
  obtain ⟨hd, hn⟩ := facade_empty_path m h
  rw [hd, hn]
  exact ⟨rfl, rfl, rfl, rfl, rfl, rfl, rfl, rfl⟩

/-- Witness for C9: an empty second hull leaves the warm start `(5, 6, 7)`
in place. -/
theorem C9_empty_hull_frame_witness :
    ((initMeasure ([⟨1, 2, 3⟩], []) ⟨5, 6, 7⟩).ConvexHulls.1 = []
      ∨ (initMeasure ([⟨1, 2, 3⟩], []) ⟨5, 6, 7⟩).ConvexHulls.2 = [])
    ∧ (MeasureDistance (initMeasure ([⟨1, 2, 3⟩], []) ⟨5, 6, 7⟩)).map Measure.Direction
        = some (⟨5, 6, 7⟩ : Vec3) :=
  ⟨Or.inr rfl, (C9_empty_hull_frame _ (Or.inr rfl)).1⟩

theorem updateDistance_Distance (m : Measure) :
    (updateDistance m).Distance = FVal.sqrtQ m.Direction.lenSqr := rfl

theorem updateDistance_Direction (m : Measure) :
    (updateDistance m).Direction = m.Direction := rfl

theorem updateDistance_degenerate (m : Measure) :
    (updateDistance m).degenerate = m.degenerate := rfl

theorem updateTheOthers_Distance (m : Measure) :
    (updateTheOthers m).Distance = m.Distance := rfl

theorem updateTheOthers_Direction (m : Measure) :
    (updateTheOthers m).Direction = m.Direction := rfl

theorem updateTheOthers_degenerate (m : Measure) :
    (updateTheOthers m).degenerate = m.degenerate := rfl

theorem updateTheOthers_simplex (m : Measure) :
    (updateTheOthers m).simplex = m.simplex := rfl

theorem updateTheOthers_hulls (m : Measure) :
    (updateTheOthers m).ConvexHulls = m.ConvexHulls := rfl

theorem updateDirection_Distance (m : Measure) :
    (updateDirection m).Distance = m.Distance := by
  unfold updateDirection; split <;> rfl

theorem updateDirection_degenerate (m : Measure) :
    (updateDirection m).degenerate = m.degenerate := by
  unfold updateDirection; split <;> rfl

theorem updateDirection_hulls (m : Measure) :
    (updateDirection m).ConvexHulls = m.ConvexHulls := by
  unfold updateDirection; split <;> rfl

theorem updateDirection_simplex (m : Measure) :
    (updateDirection m).simplex = m.simplex := by
  unfold updateDirection; split <;> rfl

theorem simplexHasCyclic_singleton (v : Vertex) (i j : ℕ) :
    simplexHasCyclic [v] i j = false := rfl

/-- One GJK loop body preserves the invariant: the distance stays `+∞` or a
nonnegative root, and on exit the state is either flagged degenerate or its
distance equals the length of its direction. -/
theorem gjkStep_post (m : Measure) (hd : DistOK m)
    (h2 : m.simplex = [] ∨ m.degenerate = true
      ∨ m.Distance = FVal.sqrtQ m.Direction.lenSqr) :
    ∀ m', (gjkStep m = Sum.inl m' ∨ gjkStep m = Sum.inr m') →
      DistOK m' ∧ (m'.degenerate = true
        ∨ m'.Distance = FVal.sqrtQ m'.Direction.lenSqr) := by
  intro m' hm'
  simp only [gjkStep] at hm'
  split at hm'
  · -- cycle detected: the appended vertex is popped, nothing else changes
    rename_i hcy
    rcases hm' with h | h
    · exact absurd h (by simp)
    · obtain rfl : _ = m' := Sum.inr.inj h
      refine ⟨hd, ?_⟩
      rcases h2 with hsim | hflag | hdist
      · rw [hsim] at hcy
        rw [List.nil_append] at hcy
        simp [simplexHasCyclic_singleton] at hcy
      · exact Or.inl hflag
      · exact Or.inr hdist
  · split at hm'
    · -- degeneracy: direction updated, distance untouched, ghost flag set
      rcases hm' with h | h
      · exact absurd h (by simp)
      · obtain rfl : _ = m' := Sum.inr.inj h
        constructor
        · rw [DistOK, updateDirection_Distance]
          exact hd
        · rw [updateDirection_degenerate]
          exact Or.inl rfl
    · -- normal path: distance updated from the new direction
      have hpost : ∀ x : Measure,
          DistOK (updateDistance x)
            ∧ ((updateDistance x).degenerate = true
              ∨ (updateDistance x).Distance
                  = FVal.sqrtQ (updateDistance x).Direction.lenSqr) := by
        intro x
        refine ⟨Or.inr ⟨x.Direction.lenSqr, Vec3.lenSqr_nonneg _, rfl⟩, Or.inr ?_⟩
        rw [updateDistance_Distance, updateDistance_Direction]
      split at hm'
      · rcases hm' with h | h
        · exact absurd h (by simp)
        · obtain rfl : _ = m' := Sum.inr.inj h
          exact hpost _
      · rcases hm' with h | h
        · obtain rfl : _ = m' := Sum.inl.inj h
          exact hpost _
        · exact absurd h (by simp)

theorem gjkLoop_post : ∀ (fuel : ℕ) (m m' : Measure), DistOK m →
    (m.simplex = [] ∨ m.degenerate = true
      ∨ m.Distance = FVal.sqrtQ m.Direction.lenSqr) →
    gjkLoop fuel m = some m' →
    DistOK m' ∧ (m'.degenerate = true
      ∨ m'.Distance = FVal.sqrtQ m'.Direction.lenSqr) := by
  intro fuel
  induction fuel with
  | zero => intro m m' _ _ h; simp [gjkLoop] at h
  | succ fuel ih =>
    intro m m' h1 h2 h
    rw [gjkLoop] at h
    split at h
    · rcases hstep : gjkStep m with m1 | m1 <;> rw [hstep] at h
      · obtain ⟨p1, p2⟩ := gjkStep_post m h1 h2 m1 (Or.inl hstep)
        exact ih m1 m' p1 (Or.inr p2) h
      · obtain rfl : m1 = m' := Option.some.inj h
        exact gjkStep_post m h1 h2 m1 (Or.inr hstep)
    · obtain rfl : m = m' := Option.some.inj h
      refine ⟨h1, ?_⟩
      rcases h2 with hsim | hflag | hdist
      · rename_i hlen
        rw [hsim] at hlen
        simp at hlen
      · exact Or.inl hflag
      · exact Or.inr hdist

/-- After `gjk` the distance is `+∞` or a nonnegative root, and unless the
loop ended through the degeneracy signal it equals the length of the final
direction. -/
theorem gjk_post (m r : Measure) (h : gjk m = some r) :
    DistOK r ∧ (r.degenerate = true
      ∨ r.Distance = FVal.sqrtQ r.Direction.lenSqr) := by
  unfold gjk at h
  cases hl : gjkLoop (gjkFuel m)
      ⟨m.ConvexHulls, FVal.inf, m.Direction, (Vec3.zero, Vec3.zero), ([], []), [], false⟩ with
  | none => rw [hl] at h; simp at h
  | some st =>
    rw [hl] at h
    simp only [Option.map_some'] at h
    obtain rfl : updateTheOthers st = r := Option.some.inj h
    obtain ⟨p1, p2⟩ := gjkLoop_post _ _ _ (Or.inl rfl) (Or.inl rfl) hl
    constructor
    · rw [DistOK, updateTheOthers_Distance]
      exact p1
    · rw [updateTheOthers_degenerate, updateTheOthers_Distance, updateTheOthers_Direction]
      exact p2

theorem DistOK.isNeg_false {m : Measure} (h : DistOK m) : m.Distance.isNeg = false := by
  rcases h with h | ⟨r, -, h⟩ <;> rw [h] <;> rfl

theorem DistOK.nonneg {m : Measure} (h : DistOK m) : FVal.Nonneg m.Distance := by
  rcases h with h | ⟨r, hr, h⟩ <;> rw [h]
  · trivial
  · exact hr

/-- The successful exit of `epa` sets the distance to the negated length of
the final direction. -/
theorem epa_distance (g r : Measure) (h : epa g = some r) :
    r.Distance = FVal.negSqrtQ r.Direction.lenSqr := by
  unfold epa at h
  split at h
  · exact absurd h (by simp)
  · split at h
    · exact absurd h (by simp)
    · split at h
      · exact absurd h (by simp)
      · obtain rfl : _ = r := Option.some.inj h
        rfl

/-- C2 counterexample: on `m0C` the GJK loop ends through the degeneracy
signal (zero barycentric numerator of the flat-face tetrahedron), leaving
`Distance = √(18/19)` while the updated `Direction` is the zero vector, so
the returned distance is not the Euclidean length of the returned
direction. -/
theorem C2_counterexample :
    (MeasureNonnegativeDistance m0C).map Measure.Distance = some (FVal.sqrtQ (qq 18 19))
    ∧ (MeasureNonnegativeDistance m0C).map (fun r => FVal.sqrtQ r.Direction.lenSqr)
        = some (FVal.sqrtQ 0)
    ∧ FVal.sqrtQ (qq 18 19) ≠ FVal.sqrtQ 0 :=
  ⟨by decide, by decide, by decide⟩

/-- C2 amended: `MeasureNonnegativeDistance` never returns a negative
distance; it returns 0 on the empty-hull short-circuit, and it returns the
Euclidean length of the final `Direction` whenever the GJK loop did not end
through the reducer's degeneracy signal (on the degeneracy path the stored
distance is the stale previous value while `Direction` has been updated). -/
theorem C2_amended_nonneg_distance (m r : Measure)
    (h : MeasureNonnegativeDistance m = some r) :
    FVal.Nonneg r.Distance
    ∧ ((m.ConvexHulls.1 = [] ∨ m.ConvexHulls.2 = []) → r.Distance = FVal.sqrtQ 0)
    ∧ (m.ConvexHulls.1 ≠ [] → m.ConvexHulls.2 ≠ [] → r.degenerate = false →
        r.Distance = FVal.sqrtQ r.Direction.lenSqr) := by
  unfold MeasureNonnegativeDistance at h
  by_cases h1 : m.ConvexHulls.1.length = 0
  · rw [if_pos h1] at h
    obtain rfl : emptyShort m = r := Option.some.inj h
    refine ⟨le_refl 0, fun _ => rfl, ?_⟩
    intro hne _ _
    exact absurd (List.length_eq_zero.mp h1) hne
  · rw [if_neg h1] at h
    by_cases h2 : m.ConvexHulls.2.length = 0
    · rw [if_pos h2] at h
      obtain rfl : emptyShort m = r := Option.some.inj h
      refine ⟨le_refl 0, fun _ => rfl, ?_⟩
      intro _ hne _
      exact absurd (List.length_eq_zero.mp h2) hne
    · rw [if_neg h2] at h
      obtain ⟨p1, p2⟩ := gjk_post m r h
      refine ⟨p1.nonneg, ?_, ?_⟩
      · intro hemp
        rcases hemp with he | he
        · exact absurd (by rw [he]; rfl) h1
        · exact absurd (by rw [he]; rfl) h2
      · intro _ _ hdeg
        rcases p2 with hfl | hq
        · rw [hdeg] at hfl
          exact absurd hfl (by simp)
        · exact hq

/-- Witness for C2 amended at two separated points. -/
theorem C2_amended_nonneg_distance_witness :
    MeasureNonnegativeDistance (initMeasure ([⟨0, 0, 0⟩], [⟨1, 0, 0⟩]) Vec3.zero)
      = some ⟨([⟨0, 0, 0⟩], [⟨1, 0, 0⟩]), FVal.sqrtQ 1, ⟨1, 0, 0⟩,
              (⟨0, 0, 0⟩, ⟨1, 0, 0⟩), ([0], [0]), [⟨(0, 0), ⟨1, 0, 0⟩, 1⟩], false⟩
    ∧ FVal.Nonneg (FVal.sqrtQ (1 : ℚ)) :=
  ⟨by decide,
   (C2_amended_nonneg_distance (initMeasure ([⟨0, 0, 0⟩], [⟨1, 0, 0⟩]) Vec3.zero)
     ⟨([⟨0, 0, 0⟩], [⟨1, 0, 0⟩]), FVal.sqrtQ 1, ⟨1, 0, 0⟩,
      (⟨0, 0, 0⟩, ⟨1, 0, 0⟩), ([0], [0]), [⟨(0, 0), ⟨1, 0, 0⟩, 1⟩], false⟩
     (by decide)).1⟩

/-- C1 counterexample: on `m0C` the hulls touch (the origin, the single
point of hull₀, is a convex combination of hull₁'s vertices 1, 2, 3 — last
two conjuncts), GJK's final simplex reaches 4 vertices so EPA runs, yet the
returned distance is `-√0 = -0.0`, which is not negative: "negative iff the
hulls overlap (EPA ran)" fails. -/
theorem C1_counterexample :
    (gjk m0C).map (fun g => g.simplex.length) = some 4
    ∧ (MeasureDistance m0C).map Measure.Distance = some (FVal.negSqrtQ 0)
    ∧ (MeasureDistance m0C).map (fun r => r.Distance.isNeg) = some false
    ∧ ((⟨3, 0, 0⟩ : Vec3).mul (qq 250 625)).add
        (((⟨-2, 2, 0⟩ : Vec3).mul (qq 225 625)).add
          (((⟨-2, -3, 0⟩ : Vec3).mul (qq 150 625))))
        = ⟨0, 0, 0⟩
    ∧ qadd (qadd (qq 250 625) (qq 225 625)) (qq 150 625) = 1 :=
  ⟨by decide, by decide, by decide, by decide, by decide⟩

/-- C1 amended: after `MeasureDistance` on non-empty hulls, the distance is
strictly negative only if GJK's final simplex reached 4 vertices (EPA ran);
and whenever EPA ran the distance is the negated length `-√(lenSqr)` of the
final direction — the negated distance of the closest EPA face — which is
`≤ 0` but can be `-0.0` when the hulls merely touch. -/
theorem C1_amended_signed_distance (m g r : Measure)
    (h0 : m.ConvexHulls.1 ≠ []) (h1 : m.ConvexHulls.2 ≠ [])
    (hg : gjk m = some g) (hr : MeasureDistance m = some r) :
    (r.Distance.isNeg = true → 4 ≤ g.simplex.length)
    ∧ (4 ≤ g.simplex.length →
        r.Distance = FVal.negSqrtQ r.Direction.lenSqr ∧ 0 ≤ r.Direction.lenSqr) := by
  have h0' : ¬m.ConvexHulls.1.length = 0 := fun hh => h0 (List.length_eq_zero.mp hh)
  have h1' : ¬m.ConvexHulls.2.length = 0 := fun hh => h1 (List.length_eq_zero.mp hh)
  unfold MeasureDistance at hr
  rw [if_neg h0', if_neg h1', hg] at hr
  change (if g.simplex.length < 4 then some g else epa g) = some r at hr
  by_cases hlen : g.simplex.length < 4
  · rw [if_pos hlen] at hr
    obtain rfl : g = r := Option.some.inj hr
    constructor
    · intro hneg
      have hf := DistOK.isNeg_false (gjk_post m g hg).1
      rw [hf] at hneg
      exact absurd hneg (by simp)
    · intro hge
      exact absurd hge (by omega)
  · rw [if_neg hlen] at hr
    constructor
    · intro _
      omega
    · intro _
      exact ⟨epa_distance g r hr, Vec3.lenSqr_nonneg _⟩

/-- Witness for C1 amended on `m0C`, where EPA runs and returns `-√0`. -/
theorem C1_amended_signed_distance_witness :
    (m0C.ConvexHulls.1 ≠ [] ∧ m0C.ConvexHulls.2 ≠ []
      ∧ gjk m0C = some g0C ∧ MeasureDistance m0C = some r0C)
    ∧ (4 ≤ g0C.simplex.length →
        r0C.Distance = FVal.negSqrtQ r0C.Direction.lenSqr ∧ 0 ≤ r0C.Direction.lenSqr) :=
  ⟨⟨by decide, by decide, by decide, by decide⟩,
   (C1_amended_signed_distance m0C g0C r0C (by decide) (by decide)
     (by decide) (by decide)).2⟩

/-- C7 counterexample: the collinear triple `A = (2,0,0)`, `B = (3,0,0)`,
`C = (1,0,0)` has `(B-A) × (C-A) = 0` exactly, yet the reducer takes the
vertex-C Voronoi branch (`uBC ≤ 0 ∧ uAC ≤ 0`), which precedes the
collinearity test, and reports no degeneracy. -/
theorem C7_counterexample :
    (((⟨3, 0, 0⟩ : Vec3).sub ⟨2, 0, 0⟩).cross ((⟨1, 0, 0⟩ : Vec3).sub ⟨2, 0, 0⟩))
        = Vec3.zero
    ∧ (updateSimplex
        [⟨(0, 0), ⟨2, 0, 0⟩, 0⟩, ⟨(0, 1), ⟨3, 0, 0⟩, 0⟩, ⟨(0, 2), ⟨1, 0, 0⟩, 0⟩]).2
        = false :=
  ⟨by decide, by decide⟩

/-- C7 amended: a 3-vertex simplex with exactly collinear coordinates makes
the reducer report degeneracy, unless the origin lies in the vertex-C
Voronoi region (`uBC ≤ 0` and `uAC ≤ 0`), in which case the simplex
collapses to `C` without a degeneracy signal. -/
theorem C7_amended_collinear_degeneracy (v1 v2 v3 : Vertex)
    (hcol : (v2.coordinate.sub v1.coordinate).cross (v3.coordinate.sub v1.coordinate)
        = Vec3.zero)
    (hreg : ¬(v3.coordinate.dot (v3.coordinate.sub v2.coordinate) ≤ 0
        ∧ v3.coordinate.dot (v3.coordinate.sub v1.coordinate) ≤ 0)) :
    (updateSimplex [v1, v2, v3]).2 = true := by
  simp only [updateSimplex]
  rw [if_neg hreg, if_pos hcol]

/-- Witness for C7 amended: a collinear triple in front of `C`. -/
theorem C7_amended_collinear_degeneracy_witness :
    ((((⟨2, 0, 0⟩ : Vec3).sub ⟨1, 0, 0⟩).cross ((⟨3, 0, 0⟩ : Vec3).sub ⟨1, 0, 0⟩)
        = Vec3.zero)
      ∧ ¬((⟨3, 0, 0⟩ : Vec3).dot ((⟨3, 0, 0⟩ : Vec3).sub ⟨2, 0, 0⟩) ≤ 0
        ∧ (⟨3, 0, 0⟩ : Vec3).dot ((⟨3, 0, 0⟩ : Vec3).sub ⟨1, 0, 0⟩) ≤ 0))
    ∧ (updateSimplex
        [⟨(0, 0), ⟨1, 0, 0⟩, 0⟩, ⟨(0, 1), ⟨2, 0, 0⟩, 0⟩, ⟨(0, 2), ⟨3, 0, 0⟩, 0⟩]).2
        = true :=
  ⟨⟨by decide, by decide⟩,
   C7_amended_collinear_degeneracy ⟨(0, 0), ⟨1, 0, 0⟩, 0⟩ ⟨(0, 1), ⟨2, 0, 0⟩, 0⟩
     ⟨(0, 2), ⟨3, 0, 0⟩, 0⟩ (by decide) (by decide)⟩

theorem updateDistance_hulls (m : Measure) :
    (updateDistance m).ConvexHulls = m.ConvexHulls := rfl

theorem gjkStep_hulls (m : Measure) :
    ∀ m', (gjkStep m = Sum.inl m' ∨ gjkStep m = Sum.inr m') →
      m'.ConvexHulls = m.ConvexHulls := by
  intro m' hm'
  simp only [gjkStep] at hm'
  split at hm'
  · rcases hm' with h | h
    · exact absurd h (by simp)
    · obtain rfl : _ = m' := Sum.inr.inj h
      rfl
  · split at hm'
    · rcases hm' with h | h
      · exact absurd h (by simp)
      · obtain rfl : _ = m' := Sum.inr.inj h
        rw [updateDirection_hulls]
    · split at hm'
      · rcases hm' with h | h
        · exact absurd h (by simp)
        · obtain rfl : _ = m' := Sum.inr.inj h
          rw [updateDistance_hulls, updateDirection_hulls]
      · rcases hm' with h | h
        · obtain rfl : _ = m' := Sum.inl.inj h
          rw [updateDistance_hulls, updateDirection_hulls]
        · exact absurd h (by simp)

theorem gjkLoop_hulls : ∀ (fuel : ℕ) (m m' : Measure),
    gjkLoop fuel m = some m' → m'.ConvexHulls = m.ConvexHulls := by
  intro fuel
  induction fuel with
  | zero => intro m m' h; simp [gjkLoop] at h
  | succ fuel ih =>
    intro m m' h
    rw [gjkLoop] at h
    split at h
    · rcases hstep : gjkStep m with m1 | m1 <;> rw [hstep] at h
      · rw [ih m1 m' h]
        exact gjkStep_hulls m m1 (Or.inl hstep)
      · obtain rfl : m1 = m' := Option.some.inj h
        exact gjkStep_hulls m m1 (Or.inr hstep)
    · obtain rfl : m = m' := Option.some.inj h
      rfl

theorem gjk_hulls (m r : Measure) (h : gjk m = some r) :
    r.ConvexHulls = m.ConvexHulls := by
  unfold gjk at h
  cases hl : gjkLoop (gjkFuel m)
      ⟨m.ConvexHulls, FVal.inf, m.Direction, (Vec3.zero, Vec3.zero), ([], []), [], false⟩ with
  | none => rw [hl] at h; simp at h
  | some st =>
    rw [hl] at h
    simp only [Option.map_some'] at h
    obtain rfl : updateTheOthers st = r := Option.some.inj h
    have hst := gjkLoop_hulls _ _ _ hl
    rw [updateTheOthers_hulls, hst]

theorem epaLoop_hulls : ∀ (fuel : ℕ) (m : Measure) (faces : List Face)
    (m' : Measure) (faces' : List Face),
    epaLoop fuel m faces = some (m', faces') → m'.ConvexHulls = m.ConvexHulls := by
  intro fuel
  induction fuel with
  | zero => intro m faces m' faces' h; simp [epaLoop] at h
  | succ fuel ih =>
    intro m faces m' faces' h
    simp only [epaLoop] at h
    split at h
    · exact absurd h (by simp)
    · split at h
      · simp only [Option.some.injEq, Prod.mk.injEq] at h
        obtain ⟨rfl, rfl⟩ := h
        rfl
      · split at h
        · exact absurd h (by simp)
        · rw [ih _ _ _ _ h]

set_option maxHeartbeats 1000000 in
theorem epa_hulls (g r : Measure) (h : epa g = some r) :
    r.ConvexHulls = g.ConvexHulls := by
  unfold epa at h
  split at h
  · exact absurd h (by simp)
  · split at h
    · exact absurd h (by simp)
    · rename_i m1 faces2 hloop
      split at h
      · exact absurd h (by simp)
      · obtain rfl : _ = r := Option.some.inj h
        have hm1 := epaLoop_hulls _ _ _ _ _ hloop
        simp only [updateTheOthers_hulls, updateDistance_hulls, updateDirection_hulls]
        exact hm1

theorem MND_hulls (m r : Measure) (h : MeasureNonnegativeDistance m = some r) :
    r.ConvexHulls = m.ConvexHulls := by
  unfold MeasureNonnegativeDistance at h
  split at h
  · obtain rfl : emptyShort m = r := Option.some.inj h
    rfl
  · split at h
    · obtain rfl : emptyShort m = r := Option.some.inj h
      rfl
    · exact gjk_hulls m r h

theorem MD_hulls (m r : Measure) (h : MeasureDistance m = some r) :
    r.ConvexHulls = m.ConvexHulls := by
  unfold MeasureDistance at h
  split at h
  · obtain rfl : emptyShort m = r := Option.some.inj h
    rfl
  · split at h
    · obtain rfl : emptyShort m = r := Option.some.inj h
      rfl
    · split at h
      · exact absurd h (by simp)
      · rename_i g hg
        split at h
        · obtain rfl : g = r := Option.some.inj h
          exact gjk_hulls m g hg
        · rw [epa_hulls g r h]
          exact gjk_hulls m g hg

/-- The result of `gjk` depends only on the hulls and the warm-start
direction: the loop starts from a reset state and `updateTheOthers`
overwrites the outputs completely. -/
theorem gjk_congr (m₁ m₂ : Measure) (hh : m₁.ConvexHulls = m₂.ConvexHulls)
    (hd : m₁.Direction = m₂.Direction) : gjk m₁ = gjk m₂ := by
  unfold gjk gjkFuel
  rw [hh, hd]

/-- C8 counterexample: on these fixed hulls the first
`MeasureNonnegativeDistance` call returns distance `√(4/41)`, but the second
call — warm-started from the direction the first call wrote back — takes a
different support path into the degeneracy break and returns `√(8/43)`: the
second call's outputs differ from the first call's. -/
theorem C8_counterexample :
    (MeasureNonnegativeDistance
        (initMeasure ([⟨0, 1, 0⟩, ⟨1, -1, 0⟩, ⟨-1, 0, 0⟩, ⟨-1, -1, -1⟩],
          [⟨1, 1, 1⟩, ⟨-1, -1, 0⟩, ⟨-1, 1, 1⟩]) Vec3.zero)).map Measure.Distance
      = some (FVal.sqrtQ (qq 4 41))
    ∧ ((MeasureNonnegativeDistance
        (initMeasure ([⟨0, 1, 0⟩, ⟨1, -1, 0⟩, ⟨-1, 0, 0⟩, ⟨-1, -1, -1⟩],
          [⟨1, 1, 1⟩, ⟨-1, -1, 0⟩, ⟨-1, 1, 1⟩]) Vec3.zero)).bind
        MeasureNonnegativeDistance).map Measure.Distance
      = some (FVal.sqrtQ (qq 8 43))
    ∧ FVal.sqrtQ (qq 4 41) ≠ FVal.sqrtQ (qq 8 43) :=
  ⟨by decide, by decide, by decide⟩

/-- C8 amended: a second call yields the identical state whenever the first
call left the warm-start `Direction` unchanged; in general the rewritten
direction changes the support sequence of the second call (see the
counterexample). -/
theorem C8_amended_warm_start_fixed_point (m r : Measure) :
    ((MeasureNonnegativeDistance m = some r ∧ r.Direction = m.Direction) →
      MeasureNonnegativeDistance r = some r)
    ∧ ((MeasureDistance m = some r ∧ r.Direction = m.Direction) →
      MeasureDistance r = some r) := by
  constructor
  · rintro ⟨hm, hdir⟩
    have hh := MND_hulls m r hm
    unfold MeasureNonnegativeDistance at hm ⊢
    rw [hh]
    split at hm
    · rename_i h1
      rw [if_pos h1]
      obtain rfl : emptyShort m = r := Option.some.inj hm
      rfl
    · rename_i h1
      rw [if_neg h1]
      split at hm
      · rename_i h2
        rw [if_pos h2]
        obtain rfl : emptyShort m = r := Option.some.inj hm
        rfl
      · rename_i h2
        rw [if_neg h2, gjk_congr r m hh hdir]
        exact hm
  · rintro ⟨hm, hdir⟩
    have hh := MD_hulls m r hm
    unfold MeasureDistance at hm ⊢
    rw [hh]
    split at hm
    · rename_i h1
      rw [if_pos h1]
      obtain rfl : emptyShort m = r := Option.some.inj hm
      rfl
    · rename_i h1
      rw [if_neg h1]
      split at hm
      · rename_i h2
        rw [if_pos h2]
        obtain rfl : emptyShort m = r := Option.some.inj hm
        rfl
      · rename_i h2
        rw [if_neg h2, gjk_congr r m hh hdir]
        exact hm

/-- Witness for C8 amended: identical one-point hulls, where the first call
leaves the zero warm start in place and the second call reproduces the
state. -/
theorem C8_amended_warm_start_fixed_point_witness :
    (MeasureNonnegativeDistance (initMeasure ([⟨0, 0, 0⟩], [⟨0, 0, 0⟩]) Vec3.zero)
        = some ⟨([⟨0, 0, 0⟩], [⟨0, 0, 0⟩]), FVal.sqrtQ 0, ⟨0, 0, 0⟩,
            (⟨0, 0, 0⟩, ⟨0, 0, 0⟩), ([0], [0]), [⟨(0, 0), ⟨0, 0, 0⟩, 1⟩], false⟩
      ∧ (⟨([⟨0, 0, 0⟩], [⟨0, 0, 0⟩]), FVal.sqrtQ 0, ⟨0, 0, 0⟩,
            (⟨0, 0, 0⟩, ⟨0, 0, 0⟩), ([0], [0]), [⟨(0, 0), ⟨0, 0, 0⟩, 1⟩],
            false⟩ : Measure).Direction
          = (initMeasure ([⟨0, 0, 0⟩], [⟨0, 0, 0⟩]) Vec3.zero).Direction)
    ∧ MeasureNonnegativeDistance
        ⟨([⟨0, 0, 0⟩], [⟨0, 0, 0⟩]), FVal.sqrtQ 0, ⟨0, 0, 0⟩,
         (⟨0, 0, 0⟩, ⟨0, 0, 0⟩), ([0], [0]), [⟨(0, 0), ⟨0, 0, 0⟩, 1⟩], false⟩
        = some ⟨([⟨0, 0, 0⟩], [⟨0, 0, 0⟩]), FVal.sqrtQ 0, ⟨0, 0, 0⟩,
            (⟨0, 0, 0⟩, ⟨0, 0, 0⟩), ([0], [0]), [⟨(0, 0), ⟨0, 0, 0⟩, 1⟩], false⟩ :=
  ⟨⟨by decide, by decide⟩,
   (C8_amended_warm_start_fixed_point (initMeasure ([⟨0, 0, 0⟩], [⟨0, 0, 0⟩]) Vec3.zero)
     ⟨([⟨0, 0, 0⟩], [⟨0, 0, 0⟩]), FVal.sqrtQ 0, ⟨0, 0, 0⟩,
      (⟨0, 0, 0⟩, ⟨0, 0, 0⟩), ([0], [0]), [⟨(0, 0), ⟨0, 0, 0⟩, 1⟩], false⟩).1
     ⟨by decide, by decide⟩⟩

/-- C10: when GJK's final simplex has fewer than 4 vertices, `MeasureDistance`
and `MeasureNonnegativeDistance` from the same initial state produce the
identical result: both run exactly the GJK computation and `MeasureDistance`
skips EPA. -/
theorem C10_no_epa_entry_points_agree (m g : Measure)
    (h0 : m.ConvexHulls.1 ≠ []) (h1 : m.ConvexHulls.2 ≠ [])
    (hg : gjk m = some g) (hlen : g.simplex.length < 4) :
    MeasureDistance m = MeasureNonnegativeDistance m := by
  have h0' : ¬m.ConvexHulls.1.length = 0 := fun hh => h0 (List.length_eq_zero.mp hh)
  have h1' : ¬m.ConvexHulls.2.length = 0 := fun hh => h1 (List.length_eq_zero.mp hh)
  unfold MeasureDistance MeasureNonnegativeDistance
  rw [if_neg h0', if_neg h0', if_neg h1', if_neg h1', hg]
  show (if g.simplex.length < 4 then some g else epa g) = some g
  rw [if_pos hlen]

/-- Witness for C10 at concrete separated point hulls. -/
theorem C10_no_epa_entry_points_agree_witness :
    gjk (initMeasure ([⟨0, 0, 0⟩], [⟨1, 0, 0⟩]) Vec3.zero)
      = some ⟨([⟨0, 0, 0⟩], [⟨1, 0, 0⟩]), FVal.sqrtQ 1, ⟨1, 0, 0⟩,
              (⟨0, 0, 0⟩, ⟨1, 0, 0⟩), ([0], [0]), [⟨(0, 0), ⟨1, 0, 0⟩, 1⟩], false⟩
    ∧ MeasureDistance (initMeasure ([⟨0, 0, 0⟩], [⟨1, 0, 0⟩]) Vec3.zero)
        = MeasureNonnegativeDistance (initMeasure ([⟨0, 0, 0⟩], [⟨1, 0, 0⟩]) Vec3.zero) :=
  ⟨by decide,
   C10_no_epa_entry_points_agree _
     ⟨([⟨0, 0, 0⟩], [⟨1, 0, 0⟩]), FVal.sqrtQ 1, ⟨1, 0, 0⟩,
      (⟨0, 0, 0⟩, ⟨1, 0, 0⟩), ([0], [0]), [⟨(0, 0), ⟨1, 0, 0⟩, 1⟩], false⟩
     (by decide) (by decide) (by decide) (by decide)⟩

end Closest
